import Mathlib

/-!
Verification of the BootstrapLossLayer (bootstrap_loss_layer.cpp).

This file gives a shallow embedding of the layer's CPU forward and backward
passes and of the reshape-time shape check, and proves the stated properties
of the loss/gradient computation against that embedding.

Modelling conventions:
* Machine reals (the template parameter `Dtype`, instantiated at `float` and
  `double`) are idealized as exact rationals `ℚ`; the C math-library
  logarithm is an abstract parameter `lg : ℚ → ℚ` of every definition that
  needs it, since none of the verified properties depend on the values of
  the logarithm.
* Flat tensor buffers (`prob_.cpu_data()`, `bottom[1]->cpu_data()`, ...)
  are total functions `ℕ → ℚ` (respectively `ℕ → Int` for label buffers
  after the `static_cast<int>` performed on every read).
* The imperative loops of `Forward_cpu` and `Backward_cpu` are transcribed
  as left folds over `List.range`, with buffer writes as pointwise
  functional updates; the loop structure, index arithmetic
  (`i * dim + k * inner_num + j`) and branch conditions follow the source
  line by line.
* `LOG(FATAL)` (a process-aborting failure) is modelled by returning
  `Except.error` from the function that would abort; `CHECK_EQ` in
  `Reshape` likewise.
* The class axis: the loops run `k` up to `bottom[0]->channels()` and the
  ignore branch of the backward pass up to `bottom[0]->shape(softmax_axis_)`;
  with the class (softmax) axis these are the same count, embedded here as
  the single field `numClasses`.
-/

set_option maxHeartbeats 1000000

namespace BootstrapLoss

/-- The element types the layer is instantiated at (`INSTANTIATE_CLASS`
generates the `float` and the `double` instantiation). -/
inductive ElemType
  | single
  | double
deriving DecidableEq

/-- FLT_MIN, the smallest positive normalized single-precision value,
exactly 2 to the power -126. -/
def fltMin : ℚ := 1 / 2 ^ 126

/-- DBL_MIN, the smallest positive normalized double-precision value,
exactly 2 to the power -1022.  (The smallest positive subnormal double,
2 to the power -1074, is smaller still; either reading of "smallest
positive representable double" differs from `fltMin`.) -/
def dblMin : ℚ := 1 / 2 ^ 1022

/-- The clamp constant actually used by the code: line 93-94 reads
`std::max(prob_data[...], Dtype(FLT_MIN))`, so both the single- and the
double-precision instantiation clamp at FLT_MIN. -/
def epsUsed : ElemType → ℚ := fun _ => fltMin

/-- Modelled from the spec: "the smallest positive representable value for
the numeric type (single- or double-precision)". For the single-precision
instantiation we take the charitable reading FLT_MIN; for double-precision
the smallest positive representable value is DBL_MIN (or smaller, for the
subnormal reading). -/
def specSmallestPositive : ElemType → ℚ
  | .single => fltMin
  | .double => dblMin

/-- The configuration fields read in `LayerSetUp` (lines 35-42), write-once
at setup. -/
structure BootstrapConfig where
  hasIgnoreLabel : Bool
  ignoreLabel : Int
  normalize : Bool
  isHardMode : Bool
  beta : ℚ

/-- Per-call tensor inputs of the forward/backward passes: the shape data
fixed at reshape time (`outer_num_`, `inner_num_`, the class count), the
probability buffer produced by the softmax sub-layer, the noisy label
buffer `bottom[1]` and the predicted label buffer produced by the argmax
sub-layer.  Label buffers are modelled after the `static_cast<int>`
performed on every read. -/
structure BootstrapInput where
  outerNum : ℕ
  innerNum : ℕ
  numClasses : ℕ
  prob : ℕ → ℚ
  nLabel : ℕ → Int
  pLabel : ℕ → Int

/-- `dim = prob_.count() / outer_num_`: the flat size of one outer slice. -/
def dim (inp : BootstrapInput) : ℕ := inp.numClasses * inp.innerNum

/-- `prob_.count()`: the flat size of the probability / gradient buffer. -/
def totalCount (inp : BootstrapInput) : ℕ := inp.outerNum * dim inp

/-- The flat index `i * dim + k * inner_num + j` used by both passes. -/
def probIdx (inp : BootstrapInput) (i k j : ℕ) : ℕ :=
  i * dim inp + k * inp.innerNum + j

/-- The flat index `i * inner_num + j` into the label buffers. -/
def labelIdx (inp : BootstrapInput) (i j : ℕ) : ℕ := i * inp.innerNum + j

/-- `n_label_value` at position (i,j): line 80 / line 126. -/
def nLabelAt (inp : BootstrapInput) (i j : ℕ) : Int :=
  inp.nLabel (labelIdx inp i j)

/-- `p_label_value` at position (i,j): line 81 / line 127. -/
def pLabelAt (inp : BootstrapInput) (i j : ℕ) : Int :=
  inp.pLabel (labelIdx inp i j)

/-- The ignore test `has_ignore_label_ && n_label_value == ignore_label_`
(line 82 / line 128). -/
def isIgnored (cfg : BootstrapConfig) (inp : BootstrapInput) (i j : ℕ) : Bool :=
  cfg.hasIgnoreLabel && (nLabelAt inp i j == cfg.ignoreLabel)

/-- The numeric value of a C++ bool-to-Dtype conversion such as
`(k == n_label_value)`: 1 when the condition holds, 0 otherwise. -/
def iverson (b : Prop) [Decidable b] : ℚ := if b then 1 else 0

/-- The mixed target weight `c` computed in the forward pass, lines 88-92. -/
def forwardMixC (cfg : BootstrapConfig) (inp : BootstrapInput) (i j k : ℕ) : ℚ :=
  if cfg.isHardMode then
    cfg.beta * iverson ((k : Int) = nLabelAt inp i j)
      + (1 - cfg.beta) * iverson ((k : Int) = pLabelAt inp i j)
  else
    cfg.beta * iverson ((k : Int) = nLabelAt inp i j)
      + (1 - cfg.beta) * inp.prob (probIdx inp i k j)

/-- The mixed target weight `c` computed in the backward pass, lines 134-138. -/
def backwardMixC (cfg : BootstrapConfig) (inp : BootstrapInput) (i j k : ℕ) : ℚ :=
  if cfg.isHardMode then
    cfg.beta * iverson ((k : Int) = nLabelAt inp i j)
      + (1 - cfg.beta) * iverson ((k : Int) = pLabelAt inp i j)
  else
    cfg.beta * iverson ((k : Int) = nLabelAt inp i j)
      + (1 - cfg.beta) * inp.prob (probIdx inp i k j)

/-- The body of the forward position loop (lines 80-96) acting on the state
`(loss, count)`: skip ignored positions, otherwise run the class loop
`loss -= c * log(max(prob, FLT_MIN))` and increment `count`. -/
def forwardPosStep (lg : ℚ → ℚ) (cfg : BootstrapConfig) (inp : BootstrapInput)
    (i j : ℕ) (s : ℚ × ℕ) : ℚ × ℕ :=
  if isIgnored cfg inp i j then s
  else
    ((List.range inp.numClasses).foldl
      (fun l k =>
        l - forwardMixC cfg inp i j k * lg (max (inp.prob (probIdx inp i k j)) fltMin))
      s.1,
     s.2 + 1)

/-- The accumulation loops of `Forward_cpu` (lines 76-98), returning the
final `(loss, count)` state. -/
def forwardAccum (lg : ℚ → ℚ) (cfg : BootstrapConfig) (inp : BootstrapInput) : ℚ × ℕ :=
  (List.range inp.outerNum).foldl
    (fun s i =>
      (List.range inp.innerNum).foldl (fun s j => forwardPosStep lg cfg inp i j s) s)
    (0, 0)

/-- The scalar written to `top[0]` by `Forward_cpu` (lines 99-103):
`loss / count` when normalizing, else `loss / outer_num_`. -/
def forwardOutput (lg : ℚ → ℚ) (cfg : BootstrapConfig) (inp : BootstrapInput) : ℚ :=
  if cfg.normalize then
    (forwardAccum lg cfg inp).1 / (((forwardAccum lg cfg inp).2 : ℕ) : ℚ)
  else
    (forwardAccum lg cfg inp).1 / ((inp.outerNum : ℕ) : ℚ)

/-- The per-position class sum of the forward loss terms,
`sum over k of c * log(max(prob[i,k,j], FLT_MIN))`. -/
def posLossSum (lg : ℚ → ℚ) (cfg : BootstrapConfig) (inp : BootstrapInput)
    (i j : ℕ) : ℚ :=
  ∑ k ∈ Finset.range inp.numClasses,
    forwardMixC cfg inp i j k * lg (max (inp.prob (probIdx inp i k j)) fltMin)

/-- Closed form of the accumulated loss: minus the sum, over the non-ignored
positions, of the per-position class sums. -/
def lossTotal (lg : ℚ → ℚ) (cfg : BootstrapConfig) (inp : BootstrapInput) : ℚ :=
  -∑ i ∈ Finset.range inp.outerNum, ∑ j ∈ Finset.range inp.innerNum,
    (if isIgnored cfg inp i j then 0 else posLossSum lg cfg inp i j)

/-- Closed form of the valid-position counter: the number of non-ignored
positions. -/
def validCount (cfg : BootstrapConfig) (inp : BootstrapInput) : ℕ :=
  ∑ i ∈ Finset.range inp.outerNum, ∑ j ∈ Finset.range inp.innerNum,
    (if isIgnored cfg inp i j then 0 else 1)

/-- The shape check of `Reshape` (line 55):
`CHECK_EQ(outer_num_ * inner_num_, bottom[1]->count())`, a fatal abort on
mismatch. -/
def reshapeCheck (outerNum innerNum labelCount : ℕ) : Except String Unit :=
  if outerNum * innerNum = labelCount then Except.ok ()
  else Except.error ("Number of labels must match number of predictions")

/-- Pointwise functional update of a flat buffer. -/
def update (b : ℕ → ℚ) (t : ℕ) (v : ℚ) : ℕ → ℚ :=
  fun s => if s = t then v else b s

/-- `caffe_copy(n, src, dst)`: the first n entries come from src, the rest
keep their previous contents. -/
def copyInto (src dst : ℕ → ℚ) (n : ℕ) : ℕ → ℚ :=
  fun t => if t < n then src t else dst t

/-- `caffe_scal(n, alpha, b)`: scale the first n entries of b by alpha. -/
def scaleFirst (n : ℕ) (alpha : ℚ) (b : ℕ → ℚ) : ℕ → ℚ :=
  fun t => if t < n then alpha * b t else b t

/-- The body of the backward position loop (lines 126-142) acting on the
state `(bottom_diff, count)`: at an ignored position zero the whole class
row, otherwise subtract the mixed weight from every class entry and
increment `count`. -/
def backwardPosStep (cfg : BootstrapConfig) (inp : BootstrapInput)
    (i j : ℕ) (s : (ℕ → ℚ) × ℕ) : (ℕ → ℚ) × ℕ :=
  if isIgnored cfg inp i j then
    ((List.range inp.numClasses).foldl
      (fun b c => update b (probIdx inp i c j) 0) s.1,
     s.2)
  else
    ((List.range inp.numClasses).foldl
      (fun b k =>
        update b (probIdx inp i k j)
          (b (probIdx inp i k j) - backwardMixC cfg inp i j k))
      s.1,
     s.2 + 1)

/-- The position loops of `Backward_cpu` (lines 123-144), starting from a
given initial buffer and `count = 0`. -/
def backwardLoops (cfg : BootstrapConfig) (inp : BootstrapInput)
    (b0 : ℕ → ℚ) : (ℕ → ℚ) × ℕ :=
  (List.range inp.outerNum).foldl
    (fun s i =>
      (List.range inp.innerNum).foldl (fun s j => backwardPosStep cfg inp i j s) s)
    (b0, 0)

/-- The gradient buffer produced by the `propagate_down[0]` branch of
`Backward_cpu` (lines 117-151): copy the probabilities into `bottom_diff`,
run the position loops, then scale the whole buffer by
`loss_weight / count` (normalizing) or `loss_weight / outer_num_`.
`init` is the previous contents of `bottom_diff`. -/
def backwardDiff (cfg : BootstrapConfig) (inp : BootstrapInput)
    (lossWeight : ℚ) (init : ℕ → ℚ) : ℕ → ℚ :=
  if cfg.normalize then
    scaleFirst (totalCount inp)
      (lossWeight /
        (((backwardLoops cfg inp (copyInto inp.prob init (totalCount inp))).2 : ℕ) : ℚ))
      (backwardLoops cfg inp (copyInto inp.prob init (totalCount inp))).1
  else
    scaleFirst (totalCount inp) (lossWeight / ((inp.outerNum : ℕ) : ℚ))
      (backwardLoops cfg inp (copyInto inp.prob init (totalCount inp))).1

/-- `Backward_cpu` (lines 109-153).  `pd` is `(propagate_down[0],
propagate_down[1])`; `lossWeight` is `top[0]->cpu_diff()[0]`.  The
`LOG(FATAL)` on a label-gradient request is modelled as `Except.error`;
`Except.ok none` models the silent no-op when no score gradient is
requested, `Except.ok (some d)` the written gradient buffer. -/
def Backward_cpu (cfg : BootstrapConfig) (inp : BootstrapInput)
    (lossWeight : ℚ) (init : ℕ → ℚ) (pd : Bool × Bool) :
    Except String (Option (ℕ → ℚ)) :=
  if pd.2 then
    Except.error ("BootstrapLoss Layer cannot backpropagate to label inputs.")
  else if pd.1 then
    Except.ok (some (backwardDiff cfg inp lossWeight init))
  else
    Except.ok none

/-! ### Concrete sample layers used to evaluate the definitions -/

/-- A logarithm stub returning 0, usable where the verified property does
not depend on logarithm values. -/
def lgZero : ℚ → ℚ := fun _ => 0

/-- A logarithm stub returning 1. -/
def lgOne : ℚ → ℚ := fun _ => 1

/-- An all-zero buffer. -/
def zeroBuf : ℕ → ℚ := fun _ => 0

/-- Hard mode, beta 1, no ignore label, unnormalized. -/
def cfgA : BootstrapConfig := ⟨false, 0, false, true, 1⟩

/-- One position, two classes, probabilities (0.881, 0.119), noisy and
predicted label 0: the concrete scenario of the spec. -/
def inpA : BootstrapInput :=
  ⟨1, 1, 2, fun t => if t = 0 then 881 / 1000 else 119 / 1000,
   fun _ => 0, fun _ => 0⟩

/-- Hard mode, beta 1, ignore label 5, unnormalized. -/
def cfgB : BootstrapConfig := ⟨true, 5, false, true, 1⟩

/-- Two outer positions, the second carrying the ignore label 5. -/
def inpB : BootstrapInput :=
  ⟨2, 1, 2, fun _ => 1 / 2, fun t => if t = 0 then 0 else 5, fun _ => 0⟩

/-- Hard mode, beta one half, ignore label 7, unnormalized. -/
def cfgC : BootstrapConfig := ⟨true, 7, false, true, 1 / 2⟩

/-- A single position carrying the ignore label 7. -/
def inpC : BootstrapInput := ⟨1, 1, 2, fun _ => 1 / 2, fun _ => 7, fun _ => 0⟩

/-- Soft mode, beta one third, no ignore label. -/
def cfgD : BootstrapConfig := ⟨false, 0, false, false, 1 / 3⟩

/-- One position, two classes with probabilities (1/4, 3/4), noisy label 0,
predicted label 1. -/
def inpD : BootstrapInput :=
  ⟨1, 1, 2, fun t => if t = 0 then 1 / 4 else 3 / 4, fun _ => 0, fun _ => 1⟩

/-- Normalizing configuration whose ignore label 0 matches every noisy
label of `inpE`: the degenerate all-ignored case. -/
def cfgE : BootstrapConfig := ⟨true, 0, true, true, 1⟩

/-- A single position carrying noisy label 0 (ignored under `cfgE`). -/
def inpE : BootstrapInput := ⟨1, 1, 2, fun _ => 1 / 2, fun _ => 0, fun _ => 0⟩

/-! ### Forward pass: fold-to-sum lemmas -/

/-- A left fold that only subtracts accumulates to the initial value minus
the sum of the subtracted terms. -/
lemma range_foldl_sub (f : ℕ → ℚ) (n : ℕ) : ∀ (a : ℚ),
    (List.range n).foldl (fun l k => l - f k) a = a - ∑ k ∈ Finset.range n, f k := by
  induction n with
  | zero => intro a; simp
  | succ m ih =>
      intro a
      rw [List.range_succ, List.foldl_append, List.foldl_cons, List.foldl_nil, ih,
        Finset.sum_range_succ, sub_sub]

/-- One forward position step subtracts the per-position loss sum and bumps
the counter, unless the position is ignored. -/
lemma forwardPosStep_eq (lg : ℚ → ℚ) (cfg : BootstrapConfig) (inp : BootstrapInput)
    (i j : ℕ) (s : ℚ × ℕ) :
    forwardPosStep lg cfg inp i j s
      = (s.1 - (if isIgnored cfg inp i j then 0 else posLossSum lg cfg inp i j),
         s.2 + (if isIgnored cfg inp i j then 0 else 1)) := by
  unfold forwardPosStep
  by_cases h : isIgnored cfg inp i j
  · simp [h]
  · simp [h, range_foldl_sub, posLossSum]

/-- Closed form of the inner (spatial) forward loop. -/
lemma forward_inner_eq (lg : ℚ → ℚ) (cfg : BootstrapConfig) (inp : BootstrapInput)
    (i : ℕ) (m : ℕ) : ∀ (s : ℚ × ℕ),
    (List.range m).foldl (fun s j => forwardPosStep lg cfg inp i j s) s
      = (s.1 - ∑ j ∈ Finset.range m,
            (if isIgnored cfg inp i j then 0 else posLossSum lg cfg inp i j),
         s.2 + ∑ j ∈ Finset.range m,
            (if isIgnored cfg inp i j then 0 else 1)) := by
  induction m with
  | zero => intro s; simp
  | succ m ih =>
      intro s
      rw [List.range_succ, List.foldl_append, List.foldl_cons, List.foldl_nil, ih,
        forwardPosStep_eq, Finset.sum_range_succ, Finset.sum_range_succ]
      simp [sub_sub, add_assoc]

/-- The forward accumulation loops compute exactly the closed-form loss
total and valid-position count. -/
lemma forwardAccum_eq (lg : ℚ → ℚ) (cfg : BootstrapConfig) (inp : BootstrapInput) :
    forwardAccum lg cfg inp = (lossTotal lg cfg inp, validCount cfg inp) := by
  have houter : ∀ (n : ℕ) (s : ℚ × ℕ),
      (List.range n).foldl
        (fun s i =>
          (List.range inp.innerNum).foldl (fun s j => forwardPosStep lg cfg inp i j s) s) s
        = (s.1 - ∑ i ∈ Finset.range n, ∑ j ∈ Finset.range inp.innerNum,
              (if isIgnored cfg inp i j then 0 else posLossSum lg cfg inp i j),
           s.2 + ∑ i ∈ Finset.range n, ∑ j ∈ Finset.range inp.innerNum,
              (if isIgnored cfg inp i j then 0 else 1)) := by
    intro n
    induction n with
    | zero => intro s; simp
    | succ m ih =>
        intro s
        rw [List.range_succ, List.foldl_append, List.foldl_cons, List.foldl_nil, ih,
          forward_inner_eq, Finset.sum_range_succ, Finset.sum_range_succ]
        simp [sub_sub, add_assoc]
  unfold forwardAccum lossTotal validCount
  rw [houter]
  simp

/-- Replacing the `normalize` flag does not change the accumulation loops:
they never read it. -/
lemma forwardAccum_normalize (lg : ℚ → ℚ) (cfg : BootstrapConfig)
    (inp : BootstrapInput) (b : Bool) :
    forwardAccum lg { cfg with normalize := b } inp = forwardAccum lg cfg inp := by
  cases cfg; rfl

/-- Replacing the `normalize` flag does not change the valid-position count. -/
lemma validCount_normalize (cfg : BootstrapConfig) (inp : BootstrapInput) (b : Bool) :
    validCount { cfg with normalize := b } inp = validCount cfg inp := by
  cases cfg; rfl

/-- Closed form of the forward scalar output for either value of the
`normalize` flag. -/
lemma forwardOutput_eq (lg : ℚ → ℚ) (cfg : BootstrapConfig) (inp : BootstrapInput) :
    forwardOutput lg cfg inp
      = if cfg.normalize then lossTotal lg cfg inp / ((validCount cfg inp : ℕ) : ℚ)
        else lossTotal lg cfg inp / ((inp.outerNum : ℕ) : ℚ) := by
  unfold forwardOutput
  rw [forwardAccum_eq]

/-- If the outer extent is zero there are no positions, hence no valid
positions. -/
lemma validCount_outer_zero (cfg : BootstrapConfig) (inp : BootstrapInput)
    (h : inp.outerNum = 0) : validCount cfg inp = 0 := by
  unfold validCount
  rw [h]
  simp

/-! ### Flat-index arithmetic -/

/-- Division with remainder determines both digits. -/
lemma mul_add_lt_inj {n a₁ b₁ a₂ b₂ : ℕ} (h₁ : b₁ < n) (h₂ : b₂ < n)
    (h : a₁ * n + b₁ = a₂ * n + b₂) : a₁ = a₂ ∧ b₁ = b₂ := by
  have hb : b₁ = b₂ := by
    have hm := congrArg (fun t => t % n) h
    simpa [Nat.mul_add_mod_of_lt h₁, Nat.mul_add_mod_of_lt h₂] using hm
  subst hb
  refine ⟨?_, rfl⟩
  have hn : 0 < n := Nat.pos_of_ne_zero (fun hz => by omega)
  have := Nat.add_right_cancel h
  exact Nat.eq_of_mul_eq_mul_right hn this

/-- The flat index `i * dim + k * inner_num + j` is injective on in-range
triples. -/
lemma probIdx_inj (inp : BootstrapInput) {i₁ k₁ j₁ i₂ k₂ j₂ : ℕ}
    (hk₁ : k₁ < inp.numClasses) (hj₁ : j₁ < inp.innerNum)
    (hk₂ : k₂ < inp.numClasses) (hj₂ : j₂ < inp.innerNum)
    (h : probIdx inp i₁ k₁ j₁ = probIdx inp i₂ k₂ j₂) :
    i₁ = i₂ ∧ k₁ = k₂ ∧ j₁ = j₂ := by
  have hre : ∀ i k j : ℕ, probIdx inp i k j = (i * inp.numClasses + k) * inp.innerNum + j := by
    intro i k j
    unfold probIdx dim
    ring
  rw [hre, hre] at h
  obtain ⟨hA, hj⟩ := mul_add_lt_inj hj₁ hj₂ h
  obtain ⟨hi, hk⟩ := mul_add_lt_inj hk₁ hk₂ hA
  exact ⟨hi, hk, hj⟩

/-- An in-range flat index is below the buffer size `prob_.count()`. -/
lemma probIdx_lt_total (inp : BootstrapInput) {i k j : ℕ}
    (hi : i < inp.outerNum) (hk : k < inp.numClasses) (hj : j < inp.innerNum) :
    probIdx inp i k j < totalCount inp := by
  unfold probIdx totalCount dim
  have h1 : k * inp.innerNum + j < inp.numClasses * inp.innerNum := by
    calc k * inp.innerNum + j < k * inp.innerNum + inp.innerNum := by omega
    _ = (k + 1) * inp.innerNum := by ring
    _ ≤ inp.numClasses * inp.innerNum := Nat.mul_le_mul_right _ (by omega)
  calc i * (inp.numClasses * inp.innerNum) + k * inp.innerNum + j
      < i * (inp.numClasses * inp.innerNum) + inp.numClasses * inp.innerNum := by omega
  _ = (i + 1) * (inp.numClasses * inp.innerNum) := by ring
  _ ≤ inp.outerNum * (inp.numClasses * inp.innerNum) := Nat.mul_le_mul_right _ (by omega)

/-! ### Read-modify-write folds over a buffer -/

/-- A fold of pointwise writes leaves untouched locations unchanged. -/
lemma foldl_update_ne (loc : ℕ → ℕ) (G : ℚ → ℕ → ℚ) :
    ∀ (l : List ℕ) (b : ℕ → ℚ) (t : ℕ), (∀ c ∈ l, loc c ≠ t) →
      (l.foldl (fun b c => update b (loc c) (G (b (loc c)) c)) b) t = b t := by
  intro l
  induction l with
  | nil => intro b t _; rfl
  | cons a l ih =>
      intro b t h
      rw [List.foldl_cons, ih _ t (fun c hc => h c (List.mem_cons_of_mem _ hc))]
      unfold update
      rw [if_neg (fun he => h a (List.mem_cons_self a l) he.symm)]

/-- A fold of pointwise read-modify-writes over pairwise distinct locations
applies exactly one write at each location, reading the initial contents. -/
lemma foldl_update_at (loc : ℕ → ℕ) (G : ℚ → ℕ → ℚ) :
    ∀ (l : List ℕ) (b : ℕ → ℚ) (k₀ : ℕ), k₀ ∈ l → l.Nodup →
      (∀ c ∈ l, c ≠ k₀ → loc c ≠ loc k₀) →
      (l.foldl (fun b c => update b (loc c) (G (b (loc c)) c)) b) (loc k₀)
        = G (b (loc k₀)) k₀ := by
  intro l
  induction l with
  | nil => intro b k₀ hmem; exact absurd hmem (List.not_mem_nil k₀)
  | cons a l ih =>
      intro b k₀ hmem hnd hinj
      rw [List.foldl_cons]
      by_cases hak : a = k₀
      · subst hak
        have hnotin : a ∉ l := (List.nodup_cons.mp hnd).1
        rw [foldl_update_ne loc G l _ (loc a)
          (fun c hc => hinj c (List.mem_cons_of_mem _ hc)
            (fun hca => hnotin (hca ▸ hc)))]
        unfold update
        rw [if_pos rfl]
      · have hmem' : k₀ ∈ l := by
          rcases List.mem_cons.mp hmem with h | h
          · exact absurd h.symm hak
          · exact h
        have hb : update b (loc a) (G (b (loc a)) a) (loc k₀) = b (loc k₀) := by
          unfold update
          rw [if_neg (fun he => hinj a (List.mem_cons_self a l) hak he.symm)]
        rw [ih _ k₀ hmem' (List.nodup_cons.mp hnd).2
          (fun c hc => hinj c (List.mem_cons_of_mem _ hc)), hb]

/-! ### Backward pass: pointwise characterization of the gradient loops -/

/-- A backward position step does not touch the class row of a different
position. -/
lemma backwardPosStep_fst_ne (cfg : BootstrapConfig) (inp : BootstrapInput)
    {i j i₀ j₀ k₀ : ℕ} (hj : j < inp.innerNum) (hj₀ : j₀ < inp.innerNum)
    (hk₀ : k₀ < inp.numClasses) (hne : ¬(i = i₀ ∧ j = j₀)) (s : (ℕ → ℚ) × ℕ) :
    (backwardPosStep cfg inp i j s).1 (probIdx inp i₀ k₀ j₀)
      = s.1 (probIdx inp i₀ k₀ j₀) := by
  have hloc : ∀ c ∈ List.range inp.numClasses,
      probIdx inp i c j ≠ probIdx inp i₀ k₀ j₀ := by
    intro c hc he
    obtain ⟨hi', hk', hj'⟩ := probIdx_inj inp (List.mem_range.mp hc) hj hk₀ hj₀ he
    exact hne ⟨hi', hj'⟩
  unfold backwardPosStep
  by_cases hig : isIgnored cfg inp i j
  · simp only [hig, if_true]
    exact foldl_update_ne (fun c => probIdx inp i c j) (fun _ _ => 0)
      (List.range inp.numClasses) s.1 _ hloc
  · simp only [hig]
    simp only [Bool.false_eq_true, if_false]
    exact foldl_update_ne (fun c => probIdx inp i c j)
      (fun v k => v - backwardMixC cfg inp i j k)
      (List.range inp.numClasses) s.1 _ hloc

/-- A backward position step writes its own class row: zero at an ignored
position, otherwise the previous entry minus the mixed weight. -/
lemma backwardPosStep_fst_at (cfg : BootstrapConfig) (inp : BootstrapInput)
    {i j k₀ : ℕ} (hj : j < inp.innerNum) (hk₀ : k₀ < inp.numClasses)
    (s : (ℕ → ℚ) × ℕ) :
    (backwardPosStep cfg inp i j s).1 (probIdx inp i k₀ j)
      = if isIgnored cfg inp i j then 0
        else s.1 (probIdx inp i k₀ j) - backwardMixC cfg inp i j k₀ := by
  have hinj : ∀ c ∈ List.range inp.numClasses, c ≠ k₀ →
      probIdx inp i c j ≠ probIdx inp i k₀ j := by
    intro c hc hck he
    obtain ⟨_, hk', _⟩ := probIdx_inj inp (List.mem_range.mp hc) hj hk₀ hj he
    exact hck hk'
  have hmem : k₀ ∈ List.range inp.numClasses := List.mem_range.mpr hk₀
  unfold backwardPosStep
  by_cases hig : isIgnored cfg inp i j
  · simp only [hig, if_true]
    exact foldl_update_at (fun c => probIdx inp i c j) (fun _ _ => 0)
      (List.range inp.numClasses) s.1 k₀ hmem (List.nodup_range _) hinj
  · simp only [hig]
    simp only [Bool.false_eq_true, if_false]
    exact foldl_update_at (fun c => probIdx inp i c j)
      (fun v k => v - backwardMixC cfg inp i j k)
      (List.range inp.numClasses) s.1 k₀ hmem (List.nodup_range _) hinj

/-- The inner backward loop leaves the class row of a position it never
visits unchanged. -/
lemma backward_inner_fst_ne (cfg : BootstrapConfig) (inp : BootstrapInput)
    {i i₀ j₀ k₀ : ℕ} (hj₀ : j₀ < inp.innerNum) (hk₀ : k₀ < inp.numClasses) :
    ∀ (l : List ℕ), (∀ j ∈ l, j < inp.innerNum) → (∀ j ∈ l, ¬(i = i₀ ∧ j = j₀)) →
    ∀ (s : (ℕ → ℚ) × ℕ),
      ((l.foldl (fun s j => backwardPosStep cfg inp i j s) s).1 (probIdx inp i₀ k₀ j₀)
        = s.1 (probIdx inp i₀ k₀ j₀)) := by
  intro l
  induction l with
  | nil => intro _ _ s; rfl
  | cons a l ih =>
      intro hbnd hne s
      rw [List.foldl_cons,
        ih (fun j hj => hbnd j (List.mem_cons_of_mem _ hj))
           (fun j hj => hne j (List.mem_cons_of_mem _ hj)),
        backwardPosStep_fst_ne cfg inp (hbnd a (List.mem_cons_self a l)) hj₀ hk₀
          (hne a (List.mem_cons_self a l))]

/-- The inner backward loop writes each visited class row exactly once. -/
lemma backward_inner_fst_at (cfg : BootstrapConfig) (inp : BootstrapInput)
    {i₀ j₀ k₀ : ℕ} (hj₀ : j₀ < inp.innerNum) (hk₀ : k₀ < inp.numClasses) :
    ∀ (l : List ℕ), l.Nodup → (∀ j ∈ l, j < inp.innerNum) → j₀ ∈ l →
    ∀ (s : (ℕ → ℚ) × ℕ),
      ((l.foldl (fun s j => backwardPosStep cfg inp i₀ j s) s).1 (probIdx inp i₀ k₀ j₀)
        = if isIgnored cfg inp i₀ j₀ then 0
          else s.1 (probIdx inp i₀ k₀ j₀) - backwardMixC cfg inp i₀ j₀ k₀) := by
  intro l
  induction l with
  | nil => intro _ _ hmem; exact absurd hmem (List.not_mem_nil j₀)
  | cons a l ih =>
      intro hnd hbnd hmem s
      rw [List.foldl_cons]
      by_cases haj : a = j₀
      · subst haj
        have hnotin : a ∉ l := (List.nodup_cons.mp hnd).1
        rw [backward_inner_fst_ne cfg inp hj₀ hk₀ l
          (fun j hj => hbnd j (List.mem_cons_of_mem _ hj))
          (fun j hj hij => hnotin (hij.2 ▸ hj)) _,
          backwardPosStep_fst_at cfg inp hj₀ hk₀ s]
      · have hmem' : j₀ ∈ l := by
          rcases List.mem_cons.mp hmem with h | h
          · exact absurd h.symm haj
          · exact h
        rw [ih (List.nodup_cons.mp hnd).2
            (fun j hj => hbnd j (List.mem_cons_of_mem _ hj)) hmem',
          backwardPosStep_fst_ne cfg inp (hbnd a (List.mem_cons_self a l)) hj₀ hk₀
            (fun hij => haj hij.2)]

/-- The outer backward loop leaves the class rows of unvisited outer indices
unchanged. -/
lemma backward_outer_fst_ne (cfg : BootstrapConfig) (inp : BootstrapInput)
    {i₀ j₀ k₀ : ℕ} (hj₀ : j₀ < inp.innerNum) (hk₀ : k₀ < inp.numClasses) :
    ∀ (l : List ℕ), (∀ i ∈ l, i ≠ i₀) →
    ∀ (s : (ℕ → ℚ) × ℕ),
      (((l.foldl (fun s i =>
          (List.range inp.innerNum).foldl (fun s j => backwardPosStep cfg inp i j s) s) s).1)
          (probIdx inp i₀ k₀ j₀)
        = s.1 (probIdx inp i₀ k₀ j₀)) := by
  intro l
  induction l with
  | nil => intro _ s; rfl
  | cons a l ih =>
      intro hne s
      rw [List.foldl_cons, ih (fun i hi => hne i (List.mem_cons_of_mem _ hi)),
        backward_inner_fst_ne cfg inp hj₀ hk₀ (List.range inp.innerNum)
          (fun j hj => List.mem_range.mp hj)
          (fun j _ hij => hne a (List.mem_cons_self a l) hij.1)]

/-- The outer backward loop writes each visited class row exactly once. -/
lemma backward_outer_fst_at (cfg : BootstrapConfig) (inp : BootstrapInput)
    {i₀ j₀ k₀ : ℕ} (hj₀ : j₀ < inp.innerNum) (hk₀ : k₀ < inp.numClasses) :
    ∀ (l : List ℕ), l.Nodup → i₀ ∈ l →
    ∀ (s : (ℕ → ℚ) × ℕ),
      (((l.foldl (fun s i =>
          (List.range inp.innerNum).foldl (fun s j => backwardPosStep cfg inp i j s) s) s).1)
          (probIdx inp i₀ k₀ j₀)
        = if isIgnored cfg inp i₀ j₀ then 0
          else s.1 (probIdx inp i₀ k₀ j₀) - backwardMixC cfg inp i₀ j₀ k₀) := by
  intro l
  induction l with
  | nil => intro _ hmem; exact absurd hmem (List.not_mem_nil i₀)
  | cons a l ih =>
      intro hnd hmem s
      rw [List.foldl_cons]
      by_cases hai : a = i₀
      · subst hai
        have hnotin : a ∉ l := (List.nodup_cons.mp hnd).1
        rw [backward_outer_fst_ne cfg inp hj₀ hk₀ l
            (fun i hi hia => hnotin (by rwa [hia] at hi)) _,
          backward_inner_fst_at cfg inp hj₀ hk₀ (List.range inp.innerNum)
            (List.nodup_range _) (fun j hj => List.mem_range.mp hj)
            (List.mem_range.mpr hj₀) s]
      · have hmem' : i₀ ∈ l := by
          rcases List.mem_cons.mp hmem with h | h
          · exact absurd h.symm hai
          · exact h
        rw [ih (List.nodup_cons.mp hnd).2 hmem',
          backward_inner_fst_ne cfg inp hj₀ hk₀ (List.range inp.innerNum)
            (fun j hj => List.mem_range.mp hj)
            (fun j _ hij => hai hij.1)]

/-- Pointwise value of the backward loops at an in-range class entry. -/
lemma backwardLoops_fst (cfg : BootstrapConfig) (inp : BootstrapInput)
    (b0 : ℕ → ℚ) {i₀ j₀ k₀ : ℕ} (hi₀ : i₀ < inp.outerNum)
    (hj₀ : j₀ < inp.innerNum) (hk₀ : k₀ < inp.numClasses) :
    (backwardLoops cfg inp b0).1 (probIdx inp i₀ k₀ j₀)
      = if isIgnored cfg inp i₀ j₀ then 0
        else b0 (probIdx inp i₀ k₀ j₀) - backwardMixC cfg inp i₀ j₀ k₀ := by
  unfold backwardLoops
  exact backward_outer_fst_at cfg inp hj₀ hk₀ (List.range inp.outerNum)
    (List.nodup_range _) (List.mem_range.mpr hi₀) (b0, 0)

/-- The counter component of a backward position step. -/
lemma backwardPosStep_snd (cfg : BootstrapConfig) (inp : BootstrapInput)
    (i j : ℕ) (s : (ℕ → ℚ) × ℕ) :
    (backwardPosStep cfg inp i j s).2
      = s.2 + (if isIgnored cfg inp i j then 0 else 1) := by
  unfold backwardPosStep
  by_cases h : isIgnored cfg inp i j <;> simp [h]

/-- The counter component of the inner backward loop. -/
lemma backward_inner_snd (cfg : BootstrapConfig) (inp : BootstrapInput)
    (i : ℕ) (m : ℕ) : ∀ (s : (ℕ → ℚ) × ℕ),
    ((List.range m).foldl (fun s j => backwardPosStep cfg inp i j s) s).2
      = s.2 + ∑ j ∈ Finset.range m, (if isIgnored cfg inp i j then 0 else 1) := by
  induction m with
  | zero => intro s; simp
  | succ m ih =>
      intro s
      rw [List.range_succ, List.foldl_append, List.foldl_cons, List.foldl_nil,
        backwardPosStep_snd, ih, Finset.sum_range_succ, Nat.add_assoc]

/-- The backward loops count exactly the non-ignored positions, like the
forward pass. -/
lemma backwardLoops_snd (cfg : BootstrapConfig) (inp : BootstrapInput)
    (b0 : ℕ → ℚ) : (backwardLoops cfg inp b0).2 = validCount cfg inp := by
  have houter : ∀ (n : ℕ) (s : (ℕ → ℚ) × ℕ),
      ((List.range n).foldl
        (fun s i =>
          (List.range inp.innerNum).foldl (fun s j => backwardPosStep cfg inp i j s) s) s).2
        = s.2 + ∑ i ∈ Finset.range n, ∑ j ∈ Finset.range inp.innerNum,
            (if isIgnored cfg inp i j then 0 else 1) := by
    intro n
    induction n with
    | zero => intro s; simp
    | succ m ih =>
        intro s
        rw [List.range_succ, List.foldl_append, List.foldl_cons, List.foldl_nil,
          backward_inner_snd, ih, Finset.sum_range_succ, Nat.add_assoc]
  unfold backwardLoops validCount
  rw [houter]
  simp

/-- Pointwise value of the final scaled gradient buffer at an in-range
class entry. -/
lemma backwardDiff_at (cfg : BootstrapConfig) (inp : BootstrapInput)
    (g : ℚ) (init : ℕ → ℚ) {i j k : ℕ}
    (hi : i < inp.outerNum) (hj : j < inp.innerNum) (hk : k < inp.numClasses) :
    backwardDiff cfg inp g init (probIdx inp i k j)
      = (g / (if cfg.normalize then ((validCount cfg inp : ℕ) : ℚ)
              else ((inp.outerNum : ℕ) : ℚ)))
        * (if isIgnored cfg inp i j then 0
           else inp.prob (probIdx inp i k j) - backwardMixC cfg inp i j k) := by
  have hlt : probIdx inp i k j < totalCount inp := probIdx_lt_total inp hi hk hj
  have hcopy : copyInto inp.prob init (totalCount inp) (probIdx inp i k j)
      = inp.prob (probIdx inp i k j) := by
    unfold copyInto
    rw [if_pos hlt]
  have hfst := backwardLoops_fst cfg inp (copyInto inp.prob init (totalCount inp))
    hi hj hk
  rw [hcopy] at hfst
  unfold backwardDiff
  by_cases hn : cfg.normalize
  · rw [if_pos hn, if_pos hn]
    unfold scaleFirst
    rw [if_pos hlt, hfst, backwardLoops_snd]
  · rw [if_neg hn, if_neg hn]
    unfold scaleFirst
    rw [if_pos hlt, hfst]

/-- Summing the indicator of a single in-range class over all classes
gives 1. -/
lemma sum_iverson_one (C : ℕ) (n : Int) (h0 : 0 ≤ n) (hC : n < (C : Int)) :
    ∑ k ∈ Finset.range C, iverson ((k : Int) = n) = 1 := by
  obtain ⟨m, rfl⟩ := Int.eq_ofNat_of_zero_le h0
  have hm : m < C := by exact_mod_cast hC
  have hiv : ∀ k : ℕ, k ∈ Finset.range C →
      iverson ((k : Int) = (m : Int)) = if k = m then (1 : ℚ) else 0 := by
    intro k _
    unfold iverson
    simp [Int.natCast_inj]
  rw [Finset.sum_congr rfl hiv, Finset.sum_ite_eq' (Finset.range C) m (fun _ => (1 : ℚ))]
  simp [hm]

/-! ### Claim theorems -/

/-- C1.  In the backward pass, when a gradient is requested for the score
input (and none for the label input), the final gradient at every valid
(non-ignored) in-range position (i,k,j) equals
`(prob[i,k,j] - w(k)) * incoming_loss_gradient / divisor`, where `w` is the
mixed target weight and the divisor is the valid-position count when
`normalize` is set and `outer_num` otherwise — the same divisor the forward
pass uses. -/
theorem c1_backward_score_gradient (lg : ℚ → ℚ) (cfg : BootstrapConfig)
    (inp : BootstrapInput) (g : ℚ) (init : ℕ → ℚ) (i j k : ℕ)
    (hi : i < inp.outerNum) (hj : j < inp.innerNum) (hk : k < inp.numClasses)
    (hval : isIgnored cfg inp i j = false) :
    Backward_cpu cfg inp g init (true, false)
      = Except.ok (some (backwardDiff cfg inp g init)) ∧
    backwardDiff cfg inp g init (probIdx inp i k j)
      = (inp.prob (probIdx inp i k j) - backwardMixC cfg inp i j k) * g
        / (if cfg.normalize then ((validCount cfg inp : ℕ) : ℚ)
           else ((inp.outerNum : ℕ) : ℚ)) ∧
    (if cfg.normalize then (((forwardAccum lg cfg inp).2 : ℕ) : ℚ)
     else ((inp.outerNum : ℕ) : ℚ))
      = (if cfg.normalize then ((validCount cfg inp : ℕ) : ℚ)
         else ((inp.outerNum : ℕ) : ℚ)) := by
  refine ⟨rfl, ?_, by rw [forwardAccum_eq]⟩
  rw [backwardDiff_at cfg inp g init hi hj hk, hval]
  simp only [Bool.false_eq_true, if_false]
  rw [div_mul_eq_mul_div, mul_comm g]

/-- Witness for C1 on the concrete scenario `cfgA`/`inpA`: gradient entry
`(0.881 - 1) * 1 / 1 = -0.119`. -/
theorem c1_witness :
    Backward_cpu cfgA inpA 1 zeroBuf (true, false)
      = Except.ok (some (backwardDiff cfgA inpA 1 zeroBuf)) ∧
    backwardDiff cfgA inpA 1 zeroBuf (probIdx inpA 0 0 0) = -(119 / 1000 : ℚ) := by
  have h := c1_backward_score_gradient lgZero cfgA inpA 1 zeroBuf 0 0 0
    (by decide) (by decide) (by decide) (by decide)
  refine ⟨h.1, h.2.1.trans ?_⟩
  norm_num [cfgA, inpA, backwardMixC, iverson, nLabelAt, pLabelAt, labelIdx,
    probIdx, dim]

/-- C2 (amended).  The forward accumulation loop computes, over every
non-ignored position and class, the sum of `-w(k) * log(max(prob, eps))`
and counts exactly the non-ignored positions — where `eps` is FLT_MIN
(the smallest positive normalized single-precision value) for BOTH
element-type instantiations, not the element type's own smallest value. -/
theorem c2_forward_loss_accumulation (lg : ℚ → ℚ) (cfg : BootstrapConfig)
    (inp : BootstrapInput) :
    forwardAccum lg cfg inp = (lossTotal lg cfg inp, validCount cfg inp) ∧
    ∀ t : ElemType, epsUsed t = fltMin :=
  ⟨forwardAccum_eq lg cfg inp, fun _ => rfl⟩

/-- Counterexample for C2 as stated: for the double-precision
instantiation the clamp constant the code uses (FLT_MIN) is not the
smallest positive representable double. -/
theorem c2_counterexample :
    epsUsed ElemType.double ≠ specSmallestPositive ElemType.double := by
  have h : specSmallestPositive ElemType.double < epsUsed ElemType.double := by
    show dblMin < fltMin
    unfold dblMin fltMin
    rw [div_lt_div_iff₀ (by positivity) (by positivity)]
    norm_num
  exact h.ne'

/-- C3.  The mixed target weight is
`beta * [k == n] + (1 - beta) * [k == p]` in hard mode and
`beta * [k == n] + (1 - beta) * prob[i,k,j]` in soft mode, and the
backward pass evaluates the identical formula as the forward pass. -/
theorem c3_mixed_target_weight (cfg : BootstrapConfig) (inp : BootstrapInput)
    (i j k : ℕ) :
    backwardMixC cfg inp i j k = forwardMixC cfg inp i j k ∧
    (cfg.isHardMode = true → forwardMixC cfg inp i j k
      = cfg.beta * iverson ((k : Int) = nLabelAt inp i j)
        + (1 - cfg.beta) * iverson ((k : Int) = pLabelAt inp i j)) ∧
    (cfg.isHardMode = false → forwardMixC cfg inp i j k
      = cfg.beta * iverson ((k : Int) = nLabelAt inp i j)
        + (1 - cfg.beta) * inp.prob (probIdx inp i k j)) := by
  refine ⟨rfl, fun h => ?_, fun h => ?_⟩
  · unfold forwardMixC
    rw [if_pos h]
  · unfold forwardMixC
    rw [if_neg (by simp [h])]

/-- Witness for C3 at a concrete hard-mode input. -/
theorem c3_witness :
    backwardMixC cfgA inpA 0 0 0 = forwardMixC cfgA inpA 0 0 0 ∧
    forwardMixC cfgA inpA 0 0 0
      = cfgA.beta * iverson (((0 : ℕ) : Int) = nLabelAt inpA 0 0)
        + (1 - cfgA.beta) * iverson (((0 : ℕ) : Int) = pLabelAt inpA 0 0) := by
  have h := c3_mixed_target_weight cfgA inpA 0 0 0
  exact ⟨h.1, h.2.1 rfl⟩

/-- C4.  The forward scalar equals the accumulated total divided by the
valid-position count when `normalize` is set and by `outer_num` otherwise;
with k valid positions, the normalized loss is `outer_num / k` times the
unnormalized loss on the same inputs. -/
theorem c4_forward_normalization (lg : ℚ → ℚ) (cfg : BootstrapConfig)
    (inp : BootstrapInput) :
    forwardOutput lg cfg inp
      = (forwardAccum lg cfg inp).1
        / (if cfg.normalize then (((forwardAccum lg cfg inp).2 : ℕ) : ℚ)
           else ((inp.outerNum : ℕ) : ℚ)) ∧
    (∀ k : ℕ, validCount cfg inp = k → 0 < k →
      forwardOutput lg { cfg with normalize := true } inp
        = ((inp.outerNum : ℚ) / (k : ℚ))
          * forwardOutput lg { cfg with normalize := false } inp) := by
  obtain ⟨ch, cig, cn, chm, cb⟩ := cfg
  constructor
  · unfold forwardOutput
    by_cases hn : BootstrapConfig.normalize ⟨ch, cig, cn, chm, cb⟩
    · rw [if_pos hn, if_pos hn]
    · rw [if_neg hn, if_neg hn]
  · intro k hk hkpos
    have ho : inp.outerNum ≠ 0 := by
      intro hz
      rw [validCount_outer_zero _ inp hz] at hk
      omega
    rw [forwardOutput_eq, forwardOutput_eq]
    have h1 : BootstrapConfig.normalize ⟨ch, cig, true, chm, cb⟩ = true := rfl
    have h2 : BootstrapConfig.normalize ⟨ch, cig, false, chm, cb⟩ = false := rfl
    rw [h1, h2]
    simp only [if_true, Bool.false_eq_true, if_false]
    have hLT : lossTotal lg ⟨ch, cig, true, chm, cb⟩ inp
        = lossTotal lg ⟨ch, cig, false, chm, cb⟩ inp := rfl
    have hVC : validCount ⟨ch, cig, true, chm, cb⟩ inp
        = validCount ⟨ch, cig, cn, chm, cb⟩ inp := rfl
    rw [hLT, hVC, hk]
    have hoq : ((inp.outerNum : ℕ) : ℚ) ≠ 0 := Nat.cast_ne_zero.mpr ho
    have hkq : ((k : ℕ) : ℚ) ≠ 0 := Nat.cast_ne_zero.mpr (by omega)
    field_simp
    ring

/-- Witness for C4 on `cfgB`/`inpB`: one of two positions is ignored, so
normalizing doubles the loss. -/
theorem c4_witness :
    forwardOutput lgOne { cfgB with normalize := true } inpB
      = ((inpB.outerNum : ℚ) / ((1 : ℕ) : ℚ))
        * forwardOutput lgOne { cfgB with normalize := false } inpB :=
  (c4_forward_normalization lgOne cfgB inpB).2 1 (by decide) (by decide)

/-- C5.  The backward pass fails fatally exactly when a gradient is
requested with respect to the label input, whatever the score flag; if
neither gradient is requested it writes no buffer at all. -/
theorem c5_backward_error_discipline (cfg : BootstrapConfig)
    (inp : BootstrapInput) (g : ℚ) (init : ℕ → ℚ) (pd : Bool × Bool) :
    ((∃ e, Backward_cpu cfg inp g init pd = Except.error e) ↔ pd.2 = true) ∧
    (pd.1 = false → pd.2 = false → Backward_cpu cfg inp g init pd = Except.ok none) := by
  unfold Backward_cpu
  constructor
  · constructor
    · rintro ⟨e, he⟩
      by_cases h2 : pd.2
      · exact h2
      · rw [if_neg h2] at he
        by_cases h1 : pd.1
        · rw [if_pos h1] at he
          exact absurd he (by simp)
        · rw [if_neg h1] at he
          exact absurd he (by simp)
    · intro h2
      rw [if_pos h2]
      exact ⟨_, rfl⟩
  · intro h1 h2
    rw [if_neg (by simp [h2]), if_neg (by simp [h1])]

/-- Witness for C5: no flags gives a silent no-op, a label-gradient
request gives the fatal error. -/
theorem c5_witness :
    Backward_cpu cfgA inpA 1 zeroBuf (false, false) = Except.ok none ∧
    ∃ e, Backward_cpu cfgA inpA 1 zeroBuf (true, true) = Except.error e :=
  ⟨(c5_backward_error_discipline cfgA inpA 1 zeroBuf (false, false)).2 rfl rfl,
   (c5_backward_error_discipline cfgA inpA 1 zeroBuf (true, true)).1.mpr rfl⟩

/-- C6.  The reshape-time check succeeds exactly when the noisy-label
element count equals `outer_num * inner_num`, and aborts fatally on any
mismatch. -/
theorem c6_reshape_shape_check (o i c : ℕ) :
    ((reshapeCheck o i c = Except.ok ()) ↔ o * i = c) ∧
    (o * i ≠ c → ∃ e, reshapeCheck o i c = Except.error e) := by
  unfold reshapeCheck
  constructor
  · constructor
    · intro h
      by_cases he : o * i = c
      · exact he
      · rw [if_neg he] at h
        exact absurd h (by simp)
    · intro he
      rw [if_pos he]
  · intro he
    rw [if_neg he]
    exact ⟨_, rfl⟩

/-- Witness for C6: a matching and a mismatching label count. -/
theorem c6_witness :
    reshapeCheck 2 3 6 = Except.ok () ∧
    ∃ e, reshapeCheck 2 3 5 = Except.error e :=
  ⟨(c6_reshape_shape_check 2 3 6).1.mpr rfl,
   (c6_reshape_shape_check 2 3 5).2 (by norm_num)⟩

/-- C8.  At any position whose noisy and predicted labels are in class
range, the mixed target weights sum to 1 over classes: in hard mode
unconditionally (whether or not the labels coincide), in soft mode
whenever the probability row sums to 1. -/
theorem c8_mixed_weights_sum_to_one (cfg : BootstrapConfig)
    (inp : BootstrapInput) (i j : ℕ)
    (hn0 : 0 ≤ nLabelAt inp i j) (hnC : nLabelAt inp i j < (inp.numClasses : Int))
    (hp0 : 0 ≤ pLabelAt inp i j) (hpC : pLabelAt inp i j < (inp.numClasses : Int))
    (hsoft : cfg.isHardMode = false →
      ∑ k ∈ Finset.range inp.numClasses, inp.prob (probIdx inp i k j) = 1) :
    ∑ k ∈ Finset.range inp.numClasses, forwardMixC cfg inp i j k = 1 := by
  by_cases hmode : cfg.isHardMode
  · have hterm : ∀ k ∈ Finset.range inp.numClasses, forwardMixC cfg inp i j k
        = cfg.beta * iverson ((k : Int) = nLabelAt inp i j)
          + (1 - cfg.beta) * iverson ((k : Int) = pLabelAt inp i j) := by
      intro k _
      unfold forwardMixC
      rw [if_pos hmode]
    rw [Finset.sum_congr rfl hterm, Finset.sum_add_distrib, ← Finset.mul_sum,
      ← Finset.mul_sum, sum_iverson_one _ _ hn0 hnC, sum_iverson_one _ _ hp0 hpC]
    ring
  · have hterm : ∀ k ∈ Finset.range inp.numClasses, forwardMixC cfg inp i j k
        = cfg.beta * iverson ((k : Int) = nLabelAt inp i j)
          + (1 - cfg.beta) * inp.prob (probIdx inp i k j) := by
      intro k _
      unfold forwardMixC
      rw [if_neg hmode]
    rw [Finset.sum_congr rfl hterm, Finset.sum_add_distrib, ← Finset.mul_sum,
      ← Finset.mul_sum, sum_iverson_one _ _ hn0 hnC,
      hsoft (by simpa using hmode)]
    ring

/-- Witness for C8 in soft mode with a probability row summing to 1. -/
theorem c8_witness :
    ∑ k ∈ Finset.range inpD.numClasses, forwardMixC cfgD inpD 0 0 k = 1 := by
  apply c8_mixed_weights_sum_to_one cfgD inpD 0 0 (by decide) (by decide)
    (by decide) (by decide)
  intro _
  norm_num [inpD, probIdx, dim, Finset.sum_range_succ]

/-- C9.  When `normalize` is set and every position is ignored, the
valid-position counter is 0 and the forward scalar is computed as the
accumulated total divided by that zero count, with no guard. -/
theorem c9_degenerate_normalization (lg : ℚ → ℚ) (cfg : BootstrapConfig)
    (inp : BootstrapInput) (hnorm : cfg.normalize = true)
    (hall : ∀ i j, i < inp.outerNum → j < inp.innerNum →
      isIgnored cfg inp i j = true) :
    (forwardAccum lg cfg inp).2 = 0 ∧
    forwardOutput lg cfg inp = (forwardAccum lg cfg inp).1 / (0 : ℚ) := by
  have hvc : validCount cfg inp = 0 := by
    unfold validCount
    apply Finset.sum_eq_zero
    intro i hi
    apply Finset.sum_eq_zero
    intro j hj
    rw [hall i j (Finset.mem_range.mp hi) (Finset.mem_range.mp hj)]
    simp
  constructor
  · rw [forwardAccum_eq]
    exact hvc
  · rw [forwardOutput_eq, if_pos hnorm, hvc, forwardAccum_eq]
    simp

/-- Witness for C9: the all-ignored normalizing layer `cfgE`/`inpE`. -/
theorem c9_witness :
    (forwardAccum lgOne cfgE inpE).2 = 0 ∧
    forwardOutput lgOne cfgE inpE = (forwardAccum lgOne cfgE inpE).1 / (0 : ℚ) := by
  apply c9_degenerate_normalization lgOne cfgE inpE rfl
  intro i j hi hj
  have hi0 : i = 0 := by
    have : inpE.outerNum = 1 := rfl
    omega
  have hj0 : j = 0 := by
    have : inpE.innerNum = 1 := rfl
    omega
  subst hi0
  subst hj0
  decide

/-- C7.  Ignore-label positions are inert: their final gradient row is
exactly zero, and the forward scalar is unchanged when the probability
values (and hence the derived predicted labels) are perturbed arbitrarily
at ignored positions, as long as both runs agree at the non-ignored
positions. -/
theorem c7_ignore_label_noninterference (lg : ℚ → ℚ) (cfg : BootstrapConfig)
    (inp : BootstrapInput) (g : ℚ) (init : ℕ → ℚ) :
    (∀ i j k, i < inp.outerNum → j < inp.innerNum → k < inp.numClasses →
      isIgnored cfg inp i j = true →
      backwardDiff cfg inp g init (probIdx inp i k j) = 0) ∧
    (∀ (p₂ : ℕ → ℚ) (pl₂ : ℕ → Int),
      (∀ i j, i < inp.outerNum → j < inp.innerNum →
        isIgnored cfg inp i j = false →
        inp.pLabel (labelIdx inp i j) = pl₂ (labelIdx inp i j) ∧
        ∀ k, k < inp.numClasses →
          inp.prob (probIdx inp i k j) = p₂ (probIdx inp i k j)) →
      forwardOutput lg cfg inp
        = forwardOutput lg cfg { inp with prob := p₂, pLabel := pl₂ }) := by
  obtain ⟨oN, iN, cN, pr, nl, pl⟩ := inp
  constructor
  · intro i j k hi hj hk hig
    rw [backwardDiff_at cfg _ g init hi hj hk, hig]
    simp
  · intro p₂ pl₂ hagree
    rw [forwardOutput_eq, forwardOutput_eq]
    have hVC : validCount cfg ⟨oN, iN, cN, p₂, nl, pl₂⟩
        = validCount cfg ⟨oN, iN, cN, pr, nl, pl⟩ := rfl
    have hLT : lossTotal lg cfg ⟨oN, iN, cN, pr, nl, pl⟩
        = lossTotal lg cfg ⟨oN, iN, cN, p₂, nl, pl₂⟩ := by
      unfold lossTotal
      congr 1
      apply Finset.sum_congr rfl
      intro i hi
      apply Finset.sum_congr rfl
      intro j hj
      have hi' := Finset.mem_range.mp hi
      have hj' := Finset.mem_range.mp hj
      have higg : isIgnored cfg ⟨oN, iN, cN, p₂, nl, pl₂⟩ i j
          = isIgnored cfg ⟨oN, iN, cN, pr, nl, pl⟩ i j := rfl
      rw [higg]
      by_cases hig : isIgnored cfg ⟨oN, iN, cN, pr, nl, pl⟩ i j
      · rw [if_pos hig, if_pos hig]
      · rw [if_neg hig, if_neg hig]
        obtain ⟨hpl, hpr⟩ := hagree i j hi' hj' (by simpa using hig)
        unfold posLossSum
        apply Finset.sum_congr rfl
        intro k hk
        have hk' := Finset.mem_range.mp hk
        have hprk := hpr k hk'
        have hIdx : probIdx ⟨oN, iN, cN, p₂, nl, pl₂⟩ i k j
            = probIdx ⟨oN, iN, cN, pr, nl, pl⟩ i k j := rfl
        have hmix : forwardMixC cfg ⟨oN, iN, cN, pr, nl, pl⟩ i j k
            = forwardMixC cfg ⟨oN, iN, cN, p₂, nl, pl₂⟩ i j k := by
          unfold forwardMixC
          have hnn : nLabelAt ⟨oN, iN, cN, p₂, nl, pl₂⟩ i j
              = nLabelAt ⟨oN, iN, cN, pr, nl, pl⟩ i j := rfl
          have hpp : pLabelAt ⟨oN, iN, cN, p₂, nl, pl₂⟩ i j
              = pLabelAt ⟨oN, iN, cN, pr, nl, pl⟩ i j := by
            unfold pLabelAt
            exact hpl.symm
          rw [hnn, hpp, hIdx, hprk]
        rw [hmix, hIdx, hprk]
    rw [hLT, hVC]

/-- Witness for C7: the single all-ignored position of `cfgC`/`inpC` has a
zero gradient row, and replacing its probabilities and predicted label
leaves the loss unchanged. -/
theorem c7_witness :
    backwardDiff cfgC inpC 1 zeroBuf (probIdx inpC 0 0 0) = 0 ∧
    forwardOutput lgOne cfgC inpC
      = forwardOutput lgOne cfgC { inpC with prob := fun _ => 0, pLabel := fun _ => 1 } := by
  have h := c7_ignore_label_noninterference lgOne cfgC inpC 1 zeroBuf
  refine ⟨h.1 0 0 0 (by decide) (by decide) (by decide) (by decide),
    h.2 (fun _ => 0) (fun _ => 1) ?_⟩
  intro i j hi hj hig
  have hi0 : i = 0 := by
    have : inpC.outerNum = 1 := rfl
    omega
  have hj0 : j = 0 := by
    have : inpC.innerNum = 1 := rfl
    omega
  subst hi0
  subst hj0
  exact absurd hig (by decide)

/-- C10.  With beta equal to 1 the hard and the soft mode are
extensionally equal: the forward scalar and the entire backward result
(including the full gradient buffer) coincide on every input, since the
(1-beta)-weighted term vanishes in both modes. -/
theorem c10_beta_one_modes_agree (lg : ℚ → ℚ) (cfg : BootstrapConfig)
    (inp : BootstrapInput) (g : ℚ) (init : ℕ → ℚ) (pd : Bool × Bool) :
    forwardOutput lg { cfg with isHardMode := true, beta := 1 } inp
      = forwardOutput lg { cfg with isHardMode := false, beta := 1 } inp ∧
    Backward_cpu { cfg with isHardMode := true, beta := 1 } inp g init pd
      = Backward_cpu { cfg with isHardMode := false, beta := 1 } inp g init pd := by
  obtain ⟨ch, cig, cn, chm, cb⟩ := cfg
  have hmixF : forwardMixC ⟨ch, cig, cn, true, 1⟩ inp
      = forwardMixC ⟨ch, cig, cn, false, 1⟩ inp := by
    funext i j k
    unfold forwardMixC
    norm_num
  have hmixB : backwardMixC ⟨ch, cig, cn, true, 1⟩ inp
      = backwardMixC ⟨ch, cig, cn, false, 1⟩ inp := by
    funext i j k
    unfold backwardMixC
    norm_num
  have hig : isIgnored ⟨ch, cig, cn, true, 1⟩ inp
      = isIgnored ⟨ch, cig, cn, false, 1⟩ inp := rfl
  constructor
  · have hstep : forwardPosStep lg ⟨ch, cig, cn, true, 1⟩ inp
        = forwardPosStep lg ⟨ch, cig, cn, false, 1⟩ inp := by
      funext i j s
      simp only [forwardPosStep, hig, hmixF]
    have hacc : forwardAccum lg ⟨ch, cig, cn, true, 1⟩ inp
        = forwardAccum lg ⟨ch, cig, cn, false, 1⟩ inp := by
      simp only [forwardAccum, hstep]
    simp only [forwardOutput, hacc]
  · have hstep : backwardPosStep ⟨ch, cig, cn, true, 1⟩ inp
        = backwardPosStep ⟨ch, cig, cn, false, 1⟩ inp := by
      funext i j s
      simp only [backwardPosStep, hig, hmixB]
    have hloops : backwardLoops ⟨ch, cig, cn, true, 1⟩ inp
        = backwardLoops ⟨ch, cig, cn, false, 1⟩ inp := by
      funext b0
      simp only [backwardLoops, hstep]
    have hdiff : backwardDiff ⟨ch, cig, cn, true, 1⟩ inp
        = backwardDiff ⟨ch, cig, cn, false, 1⟩ inp := by
      funext w i0 t
      simp only [backwardDiff, hloops]
    simp only [Backward_cpu, hdiff]

end BootstrapLoss
